import Mathlib

/-!
Verification of the docker-starter program (docker-starter.go).

The development shallowly embeds the program's data model and operations:

* the multi-valued variable table built by readExtendedVariables from the raw
  environment, including the two regular expressions parseLinkkey and
  parseLinkvalue (embedded as explicit backtracking matchers with the same
  leftmost-greedy semantics as Go's regexp on these anchored patterns);
* the template renderer processString / fillArgs over an AST of the template
  fragment the program uses (literal text, a direct field reference, and the
  two funcMap lookup functions E and J), with Go text/template's behavior on
  map lookups: a missing key renders as the sentinel text and a missing key
  passed to a function becomes the nil slice;
* processTemplate's target-name computation and overwrite protection over an
  explicit file-system state;
* executeCommand's flattening of the table into NAME=VALUE pairs and its
  start/wait result handling.

Go strings are modelled as Lean String (character lists); every string
operation the program performs is re-implemented structurally so that all
definitions evaluate by kernel reduction.
-/

namespace DockerStarter

/-- VariableTable: association list from a variable name to its ordered list
of values, mirroring Go's map[string][]string together with the lookup and
append operations the program performs on it.  Keys are unique in every table
the program builds. -/
abbrev VarTable := List (String × List String)

/-- Lookup of a key in the table, distinguishing an absent key (none) from a
present key, as Go's map index with comma-ok does. -/
def lookupVar : VarTable → String → Option (List String)
  | [], _ => none
  | (k', vs) :: rest, k => if k' = k then some vs else lookupVar rest k

/-- Value list of a key; an absent key gives the nil slice, exactly as Go's
plain map index does. -/
def valuesOf (m : VarTable) (k : String) : List String :=
  (lookupVar m k).getD []

/-- Embedding of the Go statement result[k] = append(result[k], v): appends to
the entry of k, or creates the entry when k is absent. -/
def appendVar : VarTable → String → String → VarTable
  | [], k, v => [(k, [v])]
  | (k', vs) :: rest, k, v =>
    if k' = k then (k', vs ++ [v]) :: rest else (k', vs) :: appendVar rest k v

/-- addNew from docker-starter.go: appends value to key's list unless an
identical value is already present; the Bool reports whether it was added. -/
def addNew (m : VarTable) (key value : String) : VarTable × Bool :=
  if value ∈ valuesOf m key then (m, false) else (appendVar m key value, true)

/-- Embedding of Go strings.Split(s, sep) for the one-character separator
used by the program. -/
def goSplitOnChar (sep : Char) : List Char → List (List Char)
  | [] => [[]]
  | c :: cs =>
    if c = sep then [] :: goSplitOnChar sep cs
    else
      match goSplitOnChar sep cs with
      | [] => [[c]]
      | p :: ps => (c :: p) :: ps

/-- Splitting of one raw environment entry as the source does it:
pair := strings.Split(e, "="), then the NAME is pair[0] and the value taken is
pair[1], the text between the first and the second '=' of the entry.  The
source indexes pair[1] without a guard; entries supplied by os.Environ always
contain a '=', and for an entry without one the fallback "" here stands for a
case the program never reaches. -/
def splitEnvEntry (e : String) : String × String :=
  match goSplitOnChar '=' e.data with
  | p0 :: p1 :: _ => (⟨p0⟩, ⟨p1⟩)
  | p0 :: [] => (⟨p0⟩, "")
  | [] => ("", "")

/-- Name part of a raw environment entry. -/
def envName (e : String) : String := (splitEnvEntry e).1

/-- Raw phase of readExtendedVariables: every entry's value is appended to its
name's list, in input order. -/
def buildRawTable (env : List String) : VarTable :=
  env.foldl (fun m e => appendVar m (splitEnvEntry e).1 (splitEnvEntry e).2) []

/-- Byte-wise string comparison used by Go's sort.Strings, on character lists.
UTF-8 encoding preserves code-point order, so this agrees with Go's byte
order. -/
def leChars : List Char → List Char → Bool
  | [], _ => true
  | _ :: _, [] => false
  | a :: as, b :: bs => if a = b then leChars as bs else decide (a < b)

/-- Comparison of strings, Go sort.Strings order. -/
def goLeString (a b : String) : Bool := leChars a.data b.data

/-- Sorted insertion, the step of the sort modelling Go's sort.Strings. -/
def insertSorted (x : String) : List String → List String
  | [] => [x]
  | y :: ys => if goLeString x y then x :: y :: ys else y :: insertSorted x ys

/-- Model of Go's sort.Strings: the output is the sorted permutation of the
input, which is unique, so any correct sorting algorithm embeds it. -/
def sortStrings (l : List String) : List String := l.foldr insertSorted []

/-- Key snapshot taken by readExtendedVariables before the derivation loop:
all keys of the table, sorted. -/
def tableKeysSorted (m : VarTable) : List String :=
  sortStrings (m.map (fun kv => kv.1))

/-- Decision of Go's character class \d, which is exactly [0-9]. -/
def isGoDigit (c : Char) : Bool := decide ('0' ≤ c) && decide (c ≤ '9')

/-- Splits of a list into prefix and suffix, longest prefix first: the
candidate order a greedy (backtracking) regex star explores. -/
def splitsDesc : List Char → List (List Char × List Char)
  | [] => [([], [])]
  | c :: cs => (splitsDesc cs).map (fun p => (c :: p.1, p.2)) ++ [([], c :: cs)]

/-- Matcher for the tail (.*):(\d+)$ of the link-value pattern, greedy, giving
the captures (host, port). -/
def matchHostPort (l : List Char) : Option (List Char × List Char) :=
  (splitsDesc l).findSome? fun g =>
    match g.2 with
    | ':' :: ds => if ds ≠ [] ∧ ds.all isGoDigit then some (g.1, ds) else none
    | _ => none

/-- Matcher for the anchored pattern of parseLinkvalue,
regexp ^(.*)://(.*):(\d+)$, with Go's greedy backtracking order, giving the
captures (schema, host, port). -/
def parseLinkvalueChars (l : List Char) : Option (List Char × List Char × List Char) :=
  (splitsDesc l).findSome? fun g =>
    match g.2 with
    | ':' :: '/' :: '/' :: rest => (matchHostPort rest).map (fun hp => (g.1, hp.1, hp.2))
    | _ => none

/-- parseLinkvalue from docker-starter.go: parses a link value against
^(.*)://(.*):(\d+)$ and returns (schema, host, port), or the error the source
builds when the value does not match. -/
def parseLinkvalue (value : String) : Except String (String × String × String) :=
  match parseLinkvalueChars value.data with
  | none => .error ("found invalid link value in " ++ value)
  | some (s, h, p) => .ok (⟨s⟩, ⟨h⟩, ⟨p⟩)

/-- Matcher for the tail .*PORT_(\d+)_TCP$ of the link-key pattern: the greedy
star picks the last occurrence of PORT_ that is followed by a maximal nonempty
digit run and then exactly _TCP at the end; the capture is the digit run. -/
def matchPortTail (l : List Char) : Option (List Char) :=
  (splitsDesc l).findSome? fun g =>
    match g.2 with
    | 'P' :: 'O' :: 'R' :: 'T' :: '_' :: rest =>
      let ds := rest.takeWhile isGoDigit
      if ds ≠ [] ∧ rest.drop ds.length = ['_', 'T', 'C', 'P'] then some ds else none
    | _ => none

/-- Matcher for the anchored pattern of parseLinkkey,
regexp ^([^_]+)_(\d*).*PORT_(\d+)_TCP$, with Go's greedy backtracking order,
giving the captures (app, idx, port). -/
def parseLinkkeyChars (l : List Char) : Option (List Char × List Char × List Char) :=
  (splitsDesc l).findSome? fun g =>
    if g.1 ≠ [] ∧ g.1.all (fun c => c ≠ '_') then
      match g.2 with
      | '_' :: rest =>
        (splitsDesc rest).findSome? fun g2 =>
          if g2.1.all isGoDigit then
            (matchPortTail g2.2).map (fun g3 => (g.1, g2.1, g3))
          else none
      | _ => none
    else none

/-- parseLinkkey from docker-starter.go: returns (app, idx, port), all empty
when the key does not match the pattern, as the source's zero-value returns
do. -/
def parseLinkkey (key : String) : String × String × String :=
  match parseLinkkeyChars key.data with
  | none => ("", "", "")
  | some (a, i, p) => (⟨a⟩, ⟨i⟩, ⟨p⟩)

/-- Body of the derivation loop of readExtendedVariables for one key of the
snapshot: skip keys that are not link keys, parse the key's primary value
(the source indexes result[key][0]; every key of the snapshot has a nonempty
list, so the empty case below is never reached), skip invalid link values,
and otherwise append the derived URL to the two synthetic keys through
addNew. -/
def deriveStep (m : VarTable) (key : String) : VarTable :=
  let lk := parseLinkkey key
  if lk.1 = "" then m
  else
    match valuesOf m key with
    | [] => m
    | v0 :: _ =>
      match parseLinkvalue v0 with
      | .error _ => m
      | .ok (_, host, port) =>
        let urlValue := "http://" ++ host ++ ":" ++ port
        let appKey := lk.1 ++ "_URL"
        let m1 := (addNew m appKey urlValue).1
        let appPortKey := lk.1 ++ "_" ++ lk.2.2 ++ "_URL"
        (addNew m1 appPortKey urlValue).1

/-- readExtendedVariables from docker-starter.go: build the raw table from the
environment entries, snapshot its keys in sorted order, then run the
derivation loop over the snapshot. -/
def readExtendedVariables (env : List String) : VarTable :=
  let raw := buildRawTable env
  (tableKeysSorted raw).foldl deriveStep raw

/-- AST of the template fragment the program renders: literal text, a direct
field reference to a table key, and calls of the two funcMap functions E and J
(J with its optional separator argument).  Parsing template text into this
AST is done by the external text/template library. -/
inductive TNode where
  | text (s : String)
  | field (key : String)
  | efun (key : String)
  | jfun (key : String) (sep : Option String)
deriving DecidableEq

/-- Template: sequence of nodes rendered in order. -/
abbrev Template := List TNode

/-- extractFirstElement from docker-starter.go, the funcMap function E. -/
def extractFirstElement : List String → String
  | v :: _ => v
  | [] => ""

/-- Embedding of Go strings.Join. -/
def goJoin (sep : String) : List String → String
  | [] => ""
  | [s] => s
  | s :: rest => s ++ sep ++ goJoin sep rest

/-- extractJoinedElements from docker-starter.go, the funcMap function J; the
separator defaults to ",". -/
def extractJoinedElements (values : List String) (sepArg : Option String) : String :=
  goJoin (sepArg.getD ",") values

/-- Printed form of a []string value under text/template's fmt-style printing,
used when a field holding a slice is rendered directly. -/
def formatGoSlice (vs : List String) : String :=
  "[" ++ goJoin " " vs ++ "]"

/-- The sentinel text Go text/template prints for a reference that did not
resolve. -/
def noValueText : String := "<no value>"

/-- Rendering of one template node against the variable table, with Go
text/template's semantics on map data: a direct field reference to an absent
key prints the sentinel text, while an absent key passed as the []string
argument of E or J becomes the nil slice. -/
def execNode (vars : VarTable) : TNode → String
  | .text s => s
  | .field k =>
    match lookupVar vars k with
    | some vs => formatGoSlice vs
    | none => noValueText
  | .efun k => extractFirstElement (valuesOf vars k)
  | .jfun k sep => extractJoinedElements (valuesOf vars k) sep

/-- Rendering of a whole template: the nodes' outputs concatenated in
order. -/
def renderTemplate : Template → VarTable → String
  | [], _ => ""
  | n :: ns, vars => execNode vars n ++ renderTemplate ns vars

/-- Markup text a node came from, reconstructing the template source for the
error message of processString. -/
def nodeSource : TNode → String
  | .text s => s
  | .field k => "\x7b\x7b." ++ k ++ "\x7d\x7d"
  | .efun k => "\x7b\x7bE ." ++ k ++ "\x7d\x7d"
  | .jfun k none => "\x7b\x7bJ ." ++ k ++ "\x7d\x7d"
  | .jfun k (some sep) => "\x7b\x7bJ ." ++ k ++ " \x22" ++ sep ++ "\x22\x7d\x7d"

/-- Source text of a whole template. -/
def templateSource : Template → String
  | [] => ""
  | n :: ns => nodeSource n ++ templateSource ns

/-- Check whether pat occurs at the start of l. -/
def startsWithChars : List Char → List Char → Bool
  | _, [] => true
  | [], _ :: _ => false
  | c :: cs, p :: ps => c = p && startsWithChars cs ps

/-- Embedding of Go strings.Contains on character lists. -/
def containsChars : List Char → List Char → Bool
  | [], pat => startsWithChars [] pat
  | l@(_ :: cs), pat => startsWithChars l pat || containsChars cs pat

/-- Check of Go strings.Contains(s, sub). -/
def goContains (s sub : String) : Bool := containsChars s.data sub.data

/-- processString from docker-starter.go: render the template against the
table, then fail with the could-not-fill error naming the template source
whenever the rendered output contains the sentinel text (the source's
workaround for detecting unresolved markup).  Parse errors of the external
template parser arise before this function's embedding and are out of its
scope. -/
def processString (src : Template) (vars : VarTable) : Except String String :=
  let rendered := renderTemplate src vars
  if goContains rendered noValueText then
    .error ("could not fill all markup in: " ++ templateSource src)
  else .ok rendered

/-- fillArgs from docker-starter.go: process the cmd template first, returning
the zero values of the remaining results on failure, then the dir template. -/
def fillArgs (cmdSrc dirSrc : Template) (vars : VarTable) : String × String × Option String :=
  match processString cmdSrc vars with
  | .error e => ("", "", some e)
  | .ok cmd =>
    match processString dirSrc vars with
    | .error e => (cmd, "", some e)
    | .ok dir => (cmd, dir, none)

/-- Index of the last occurrence of pat in l, Go strings.LastIndex. -/
def lastIndexOfChars : List Char → List Char → Option Nat
  | [], pat => if startsWithChars [] pat then some 0 else none
  | l@(_ :: cs), pat =>
    match lastIndexOfChars cs pat with
    | some i => some (i + 1)
    | none => if startsWithChars l pat then some 0 else none

/-- Target-name computation of processTemplate: the filename is cut at the
last occurrence of ".tmpl" (strings.LastIndex), and only a filename with no
occurrence at all is rejected.  The error text is what Go's fmt produces for
the source's Errorf call, whose format string has no verb for the filename
argument. -/
def templateTarget (filename : String) : Except String String :=
  match lastIndexOfChars filename.data ".tmpl".data with
  | none =>
    .error ("error processing template: invalid template name%!(EXTRA string=" ++ filename ++ ")")
  | some i => .ok ⟨filename.data.take i⟩

/-- Check of Go strings.HasSuffix(s, suffix). -/
def goHasSuffix (s suffix : String) : Bool :=
  startsWithChars s.data.reverse suffix.data.reverse

/-- FileSys: contents of the working directory processTemplate operates in,
as a mapping from file name to file contents. -/
abbrev FileSys := List (String × String)

/-- Contents of a file, none when no file with that name exists. -/
def readFS : FileSys → String → Option String
  | [], _ => none
  | (n, c) :: rest, name => if n = name then some c else readFS rest name

/-- Existence check, os.Stat / os.IsNotExist. -/
def existsFS (fs : FileSys) (name : String) : Bool := (readFS fs name).isSome

/-- Create-or-truncate of os.Create followed by writing the rendered
output. -/
def writeFS : FileSys → String → String → FileSys
  | [], name, contents => [(name, contents)]
  | (n, c) :: rest, name, contents =>
    if n = name then (n, contents) :: rest else (n, c) :: writeFS rest name contents

/-- processTemplate from docker-starter.go over the file-system state: compute
the target name, refuse to overwrite an existing destination unless force is
set (logging the overwrite warning when it is), read and parse the template
file (the parser of the external template library is passed in as parse), and
render into the destination.  The result is the new file system, the log
lines, and the returned error.  Rendering into the created file is total in
this embedding, as execution of the embedded fragment cannot fail. -/
def processTemplate (fs : FileSys) (filename : String)
    (parse : String → Except String Template) (vars : VarTable) (force : Bool) :
    FileSys × List String × Option String :=
  match templateTarget filename with
  | .error e => (fs, [e], some e)
  | .ok targetname =>
    let destExists := existsFS fs targetname
    if destExists ∧ ¬ force then
      let e := "error processing template: destinaton exists: " ++ targetname
      (fs, [e], some e)
    else
      let log1 := if destExists then ["overwriting existing file: " ++ targetname] else []
      match readFS fs filename with
      | none =>
        let e := "error processing template: open " ++ filename ++ ": no such file or directory"
        (fs, log1 ++ [e], some e)
      | some contents =>
        match parse contents with
        | .error e => (fs, log1 ++ ["error processing template: " ++ e], some e)
        | .ok t => (writeFS fs targetname (renderTemplate t vars), log1, none)

/-- Flattening of the variable table into NAME=VALUE pairs as executeCommand
does it: fmt.Sprintf("%s=%s", k, v[0]) for every entry, indexing the first
element without a guard; none embeds the index-out-of-range panic on an entry
whose value list is empty. -/
def flattenVars : VarTable → Option (List String)
  | [] => some []
  | (k, vs) :: rest =>
    match vs with
    | [] => none
    | v :: _ => (flattenVars rest).map (fun l => (k ++ "=" ++ v) :: l)

/-- executeCommand from docker-starter.go, with the operating-system outcomes
of command.Start and command.Wait passed in as startResult and waitResult
(none meaning success).  The outer Option embeds the panic of the unguarded
v[0] during flattening; the inner Option is the function's returned error.
After a successful start the source assigns err = command.Wait() and then
unconditionally executes return nil, so the inner result is none no matter
what waitResult is. -/
def executeCommand (cmd : String) (args : List String) (vars : VarTable)
    (startResult waitResult : Option String) : Option (Option String) :=
  match flattenVars vars with
  | none => none
  | some _commandVars =>
    match startResult with
    | some e => some (some e)
    | none =>
      let _ := cmd
      let _ := args
      let _err := waitResult
      some none

/-! Lemmas about the variable table operations. -/

theorem lookupVar_appendVar (m : VarTable) (k v : String) (k' : String) :
    lookupVar (appendVar m k v) k' =
      if k' = k then some (valuesOf m k ++ [v]) else lookupVar m k' := by
  induction m with
  | nil =>
    by_cases h : k' = k
    · subst h; simp [appendVar, lookupVar, valuesOf]
    · simp [appendVar, lookupVar, valuesOf, h, Ne.symm h]
  | cons kv rest ih =>
    obtain ⟨k0, vs⟩ := kv
    by_cases h0 : k0 = k
    · subst h0
      by_cases h : k' = k0
      · subst h; simp [appendVar, lookupVar, valuesOf]
      · simp [appendVar, lookupVar, h, Ne.symm h]
    · by_cases h : k' = k0
      · subst h
        simp [appendVar, lookupVar, h0, Ne.symm h0, valuesOf]
      · simp [appendVar, lookupVar, valuesOf, h0, Ne.symm h, h, ih]

theorem valuesOf_appendVar (m : VarTable) (k v : String) (k' : String) :
    valuesOf (appendVar m k v) k' =
      if k' = k then valuesOf m k ++ [v] else valuesOf m k' := by
  by_cases h : k' = k <;> simp [valuesOf, lookupVar_appendVar, h]

theorem valuesOf_addNew (m : VarTable) (k v : String) (k' : String) :
    valuesOf (addNew m k v).1 k' =
      if k' = k ∧ v ∉ valuesOf m k then valuesOf m k ++ [v] else valuesOf m k' := by
  by_cases hv : v ∈ valuesOf m k
  · simp [addNew, hv]
  · by_cases h : k' = k <;> simp [addNew, hv, valuesOf_appendVar, h]

theorem valuesOf_front_appendVar (m : VarTable) (k v k' : String) :
    valuesOf m k' <+: valuesOf (appendVar m k v) k' := by
  rw [valuesOf_appendVar]
  by_cases h : k' = k
  · subst h; simp only [if_pos rfl]; exact List.prefix_append _ _
  · simp [h]

theorem valuesOf_front_addNew (m : VarTable) (k v k' : String) :
    valuesOf m k' <+: valuesOf (addNew m k v).1 k' := by
  rw [valuesOf_addNew]
  by_cases h : k' = k ∧ v ∉ valuesOf m k
  · rw [if_pos h]; exact h.1 ▸ List.prefix_append _ _
  · rw [if_neg h]

theorem deriveStep_shape (m : VarTable) (key : String) :
    deriveStep m key = m ∨
      ∃ k1 v k2, deriveStep m key = (addNew (addNew m k1 v).1 k2 v).1 := by
  simp only [deriveStep]
  split
  · left; rfl
  · split
    · left; rfl
    · split
      · left; rfl
      · right; exact ⟨_, _, _, rfl⟩

theorem valuesOf_front_deriveStep (m : VarTable) (key k' : String) :
    valuesOf m k' <+: valuesOf (deriveStep m key) k' := by
  rcases deriveStep_shape m key with h | ⟨k1, v, k2, h⟩
  · rw [h]
  · rw [h]
    exact (valuesOf_front_addNew m k1 v k').trans (valuesOf_front_addNew _ k2 v k')

theorem valuesOf_front_foldl (keys : List String) (m : VarTable) (k' : String) :
    valuesOf m k' <+: valuesOf (keys.foldl deriveStep m) k' := by
  induction keys generalizing m with
  | nil => exact List.prefix_refl _
  | cons key rest ih =>
    exact (valuesOf_front_deriveStep m key k').trans (ih (deriveStep m key))

theorem lookupVar_eq_some_mem (m : VarTable) (k : String) (vs : List String)
    (h : lookupVar m k = some vs) : (k, vs) ∈ m := by
  induction m with
  | nil => cases h
  | cons kv rest ih =>
    obtain ⟨k0, vs0⟩ := kv
    by_cases hk : k0 = k
    · subst hk
      rw [lookupVar, if_pos rfl] at h
      obtain rfl : vs0 = vs := Option.some.inj h
      exact List.mem_cons_self _ _
    · rw [lookupVar, if_neg hk] at h
      exact List.mem_cons_of_mem _ (ih h)

theorem nodup_values_of_entries (m : VarTable) (h : ∀ kv ∈ m, kv.2.Nodup) (k : String) :
    (valuesOf m k).Nodup := by
  unfold valuesOf
  cases hl : lookupVar m k with
  | none => simp
  | some vs => simpa using h (k, vs) (lookupVar_eq_some_mem _ _ _ hl)

theorem nodup_values_appendVar (m : VarTable) (k v : String)
    (hm : ∀ k', (valuesOf m k').Nodup) (hv : v ∉ valuesOf m k) :
    ∀ k', (valuesOf (appendVar m k v) k').Nodup := by
  intro k'
  rw [valuesOf_appendVar]
  by_cases h : k' = k
  · rw [if_pos h]
    simp [List.nodup_append, List.disjoint_singleton, hm k, hv]
  · rw [if_neg h]
    exact hm k'

theorem nodup_values_addNew (m : VarTable) (k v : String)
    (hm : ∀ k', (valuesOf m k').Nodup) :
    ∀ k', (valuesOf (addNew m k v).1 k').Nodup := by
  by_cases hv : v ∈ valuesOf m k
  · simpa [addNew, hv] using hm
  · simpa [addNew, hv] using nodup_values_appendVar m k v hm hv

theorem nodup_values_deriveStep (m : VarTable) (key : String)
    (hm : ∀ k', (valuesOf m k').Nodup) :
    ∀ k', (valuesOf (deriveStep m key) k').Nodup := by
  rcases deriveStep_shape m key with h | ⟨k1, v, k2, h⟩ <;> rw [h]
  · exact hm
  · exact nodup_values_addNew _ _ _ (nodup_values_addNew _ _ _ hm)

theorem nodup_values_foldl (keys : List String) (m : VarTable)
    (hm : ∀ k', (valuesOf m k').Nodup) :
    ∀ k', (valuesOf (keys.foldl deriveStep m) k').Nodup := by
  induction keys generalizing m with
  | nil => exact hm
  | cons key rest ih => exact ih _ (nodup_values_deriveStep m key hm)

/-! Claim theorems about the variable-table pipeline (part one). -/

/-- C5: for every raw environment and every key, the values the key received
from the raw environment entries form a prefix of its value list in the table
returned by readExtendedVariables: the derivation phase only ever appends
derived URL values after the original values and never replaces an existing
entry, regardless of where in the input the link variables appear. -/
theorem c5_original_values_stay_in_front (env : List String) (k : String) :
    valuesOf (buildRawTable env) k <+: valuesOf (readExtendedVariables env) k := by
  unfold readExtendedVariables
  exact valuesOf_front_foldl _ _ _

/-- C4 counterexample: the claimed table-wide no-duplicate invariant fails on
the code: two identical raw entries A=x produce the value list x, x for key A,
because the raw phase appends without the dedup check addNew performs. -/
theorem c4_counterexample_duplicate_raw_entries :
    valuesOf (readExtendedVariables ["A=x", "A=x"]) "A" = ["x", "x"] ∧
    ¬ (valuesOf (readExtendedVariables ["A=x", "A=x"]) "A").Nodup := by
  constructor
  · rfl
  · decide

/-- C4 (amended): the dedup invariant is enforced only by addNew, i.e. by the
derivation phase: addNew never appends a value already present for the key,
and consequently whenever every value list of the raw table is duplicate-free,
every value list of the final table is duplicate-free as well.  Duplicate raw
NAME=VALUE entries, however, are appended verbatim by the raw phase. -/
theorem c4_dedup_only_in_derivation :
    (∀ (m : VarTable) (k v : String), v ∈ valuesOf m k → addNew m k v = (m, false)) ∧
    (∀ env : List String, (∀ kv ∈ buildRawTable env, kv.2.Nodup) →
      ∀ k, (valuesOf (readExtendedVariables env) k).Nodup) := by
  constructor
  · intro m k v hv
    simp [addNew, hv]
  · intro env h k
    unfold readExtendedVariables
    exact nodup_values_foldl _ _ (nodup_values_of_entries _ h) k

/-- C4 witness. -/
theorem c4_dedup_only_in_derivation_witness :
    ("x" ∈ valuesOf [("A", ["x"])] "A" ∧ addNew [("A", ["x"])] "A" "x" = ([("A", ["x"])], false)) ∧
    ((∀ kv ∈ buildRawTable ["A=x", "B=y"], kv.2.Nodup) ∧
      (valuesOf (readExtendedVariables ["A=x", "B=y"]) "A").Nodup) :=
  ⟨⟨by decide, c4_dedup_only_in_derivation.1 [("A", ["x"])] "A" "x" (by decide)⟩,
   ⟨by decide, c4_dedup_only_in_derivation.2 ["A=x", "B=y"] (by decide) "A"⟩⟩

/-- C3: the raw phase does not keep everything after the first '=' of an
entry.  For the entry A=x=y the code splits on every '=' and takes pair[1], so
the value stored for A is x, not the claimed full remainder x=y. -/
theorem c3_value_cut_at_second_equals :
    splitEnvEntry "A=x=y" = ("A", "x") ∧
    valuesOf (buildRawTable ["A=x=y"]) "A" = ["x"] ∧
    splitEnvEntry "A=x=y" ≠ ("A", "x=y") := by
  refine ⟨rfl, rfl, ?_⟩
  decide

/-- C1: after a successful start, executeCommand returns no error regardless
of the wait outcome: the source assigns err = command.Wait() and then
executes return nil, so a child that exits non-zero (waitResult carrying the
exit-status error) still yields a nil result, and main exits 0. -/
theorem c1_wait_error_is_discarded :
    executeCommand "/bin/false" [] [("FOO", ["BAR"])] none (some "exit status 1") = some none ∧
    executeCommand "/bin/false" [] [("FOO", ["BAR"])] none none = some none :=
  ⟨rfl, rfl⟩

/-- C10: flattening the table into NAME=VALUE pairs indexes v[0] without a
guard, so executeCommand is total exactly when every key's value list is
nonempty; a table with an empty value list makes the flattening (and hence
executeCommand) reach the index panic, embedded as none, instead of returning
an error. -/
theorem c10_flatten_needs_nonempty_values :
    (∀ vars : VarTable, (∀ kv ∈ vars, kv.2 ≠ []) →
      (flattenVars vars).isSome = true ∧
      ∀ cmd args startResult waitResult,
        (executeCommand cmd args vars startResult waitResult).isSome = true) ∧
    flattenVars [("A", [])] = none ∧
    (∀ cmd args startResult waitResult,
      executeCommand cmd args [("A", [])] startResult waitResult = none) := by
  refine ⟨?_, rfl, fun cmd args s w => rfl⟩
  intro vars h
  have hf : (flattenVars vars).isSome = true := by
    induction vars with
    | nil => rfl
    | cons kv rest ih =>
      obtain ⟨k, vs⟩ := kv
      cases vs with
      | nil => exact absurd rfl (h (k, []) (List.mem_cons_self _ _))
      | cons v vrest =>
        have hrest := ih (fun kv hkv => h kv (List.mem_cons_of_mem _ hkv))
        cases hfv : flattenVars rest with
        | none => rw [hfv] at hrest; cases hrest
        | some l => simp [flattenVars, hfv]
  refine ⟨hf, fun cmd args s w => ?_⟩
  unfold executeCommand
  cases hfv : flattenVars vars with
  | none => rw [hfv] at hf; cases hf
  | some l => cases s <;> rfl

/-- C10 witness. -/
theorem c10_flatten_needs_nonempty_values_witness :
    (∀ kv ∈ [("FOO", ["BAR"])], kv.2 ≠ ([] : List String)) ∧
    (flattenVars [("FOO", ["BAR"])]).isSome = true :=
  ⟨by decide, (c10_flatten_needs_nonempty_values.1 [("FOO", ["BAR"])] (by decide)).1⟩

/-! Lemmas about the template renderer. -/

theorem startsWithChars_iff (p l : List Char) : startsWithChars l p = true ↔ p <+: l := by
  induction p generalizing l with
  | nil => simp [startsWithChars]
  | cons c cs ih =>
    cases l with
    | nil => simp [startsWithChars]
    | cons a as =>
      rw [List.cons_prefix_cons]
      simp only [startsWithChars, Bool.and_eq_true, decide_eq_true_eq, ih]
      constructor
      · rintro ⟨h1, h2⟩; exact ⟨h1.symm, h2⟩
      · rintro ⟨h1, h2⟩; exact ⟨h1.symm, h2⟩

theorem containsChars_iff (l p : List Char) : containsChars l p = true ↔ p <:+: l := by
  induction l with
  | nil => simp [containsChars, startsWithChars_iff, List.infix_nil, List.prefix_nil]
  | cons c cs ih =>
    simp [containsChars, startsWithChars_iff, ih, List.infix_cons_iff]

theorem execNode_infix_render (vars : VarTable) (t : Template) (n : TNode) (hn : n ∈ t) :
    (execNode vars n).data <:+: (renderTemplate t vars).data := by
  induction t with
  | nil => cases hn
  | cons m ts ih =>
    simp only [renderTemplate, String.data_append]
    rcases List.mem_cons.mp hn with h | h
    · subst h
      exact (List.prefix_append _ _).isInfix
    · exact (ih h).trans (List.suffix_append _ _).isInfix

/-- C2 counterexample: a template whose only references to absent keys go
through the lookup functions E and J renders without any error: processString
succeeds with the empty output and fillArgs reports no error, because an
absent key handed to E or J becomes the nil slice and prints as the empty
string, not as the sentinel text. -/
theorem c2_counterexample_efun_absent_key_succeeds :
    lookupVar ([] : VarTable) "FOO" = none ∧
    processString [TNode.efun "FOO"] [] = .ok "" ∧
    fillArgs [TNode.efun "FOO"] [TNode.jfun "FOO" none] [] = ("", "", none) :=
  ⟨rfl, rfl, rfl⟩

/-- C2 (amended): a direct field reference to a key absent from the table
makes processString fail with the could-not-fill error naming the template
source, and fillArgs on such a command template returns empty strings for
both outputs together with that error; references to an absent key through
the E and J lookup functions, however, render as the empty string and do not
fail. -/
theorem c2_absent_key_failure_modes :
    (∀ (t : Template) (vars : VarTable) (k : String),
      TNode.field k ∈ t → lookupVar vars k = none →
      processString t vars = .error ("could not fill all markup in: " ++ templateSource t) ∧
      ∀ dirSrc, fillArgs t dirSrc vars =
        ("", "", some ("could not fill all markup in: " ++ templateSource t))) ∧
    (∀ (k : String) (vars : VarTable) (sep : Option String), lookupVar vars k = none →
      processString [TNode.efun k] vars = .ok "" ∧
      processString [TNode.jfun k sep] vars = .ok "") := by
  constructor
  · intro t vars k hmem hlook
    have hnode : execNode vars (TNode.field k) = noValueText := by
      simp [execNode, hlook]
    have hcont : goContains (renderTemplate t vars) noValueText = true := by
      rw [goContains, containsChars_iff]
      exact hnode ▸ execNode_infix_render vars t (TNode.field k) hmem
    have hps : processString t vars =
        .error ("could not fill all markup in: " ++ templateSource t) := by
      rw [processString]
      simp [hcont]
    refine ⟨hps, fun dirSrc => ?_⟩
    rw [fillArgs, hps]
  · intro k vars sep hlook
    have hvals : valuesOf vars k = [] := by simp [valuesOf, hlook]
    constructor
    · have hr : renderTemplate [TNode.efun k] vars = "" := by
        simp [renderTemplate, execNode, hvals, extractFirstElement]
      rw [processString, hr]
      rfl
    · have hr : renderTemplate [TNode.jfun k sep] vars = "" := by
        simp [renderTemplate, execNode, hvals, extractJoinedElements, goJoin]
      rw [processString, hr]
      rfl

/-- C2 witness. -/
theorem c2_absent_key_failure_modes_witness :
    (TNode.field "FOO" ∈ [TNode.text "command_", TNode.field "FOO"] ∧
      lookupVar ([] : VarTable) "FOO" = none ∧
      fillArgs [TNode.text "command_", TNode.field "FOO"] [] [] =
        ("", "", some ("could not fill all markup in: " ++
          templateSource [TNode.text "command_", TNode.field "FOO"]))) ∧
    (lookupVar [("OTHER", ["x"])] "FOO" = none ∧
      processString [TNode.efun "FOO"] [("OTHER", ["x"])] = .ok "") :=
  ⟨⟨by decide, rfl,
    (c2_absent_key_failure_modes.1 [TNode.text "command_", TNode.field "FOO"] [] "FOO"
      (by decide) rfl).2 []⟩,
   ⟨by decide, (c2_absent_key_failure_modes.2 "FOO" [("OTHER", ["x"])] none (by decide)).1⟩⟩

/-! Lemmas about the target-name computation of processTemplate. -/

theorem lastIndexOfChars_eq_none_iff (l pat : List Char) :
    lastIndexOfChars l pat = none ↔ ¬ pat <:+: l := by
  induction l with
  | nil =>
    simp [lastIndexOfChars, startsWithChars_iff, List.infix_nil, List.prefix_nil]
  | cons c cs ih =>
    simp only [lastIndexOfChars]
    cases h : lastIndexOfChars cs pat with
    | some i =>
      have hcs : pat <:+: cs := by
        by_contra hc
        rw [ih.mpr hc] at h
        cases h
      simp [List.infix_cons_iff, hcs]
    | none =>
      have hni := ih.mp h
      by_cases hs : startsWithChars (c :: cs) pat = true
      · have hp : pat <+: c :: cs := (startsWithChars_iff _ _).mp hs
        simp [hs, List.infix_cons_iff, hp]
      · have hnp : ¬ pat <+: c :: cs := fun hp => hs ((startsWithChars_iff _ _).mpr hp)
        simp [hs, List.infix_cons_iff, hni, hnp]

theorem lastIndexOfChars_append_tmpl (f : List Char) :
    lastIndexOfChars (f ++ ".tmpl".data) ".tmpl".data = some f.length := by
  induction f with
  | nil => rfl
  | cons c f ih => simp [lastIndexOfChars, ih]

/-- C8 counterexample: a filename that merely contains ".tmpl" in the middle
is not rejected: for a.tmpl.bak, which does not end with the suffix, the
target a is accepted and processTemplate runs to completion, writing the
file a instead of failing. -/
theorem c8_counterexample_middle_tmpl_accepted :
    templateTarget "a.tmpl.bak" = .ok "a" ∧
    goHasSuffix "a.tmpl.bak" ".tmpl" = false ∧
    processTemplate [("a.tmpl.bak", "X")] "a.tmpl.bak"
        (fun s => .ok [TNode.text s]) [] false =
      ([("a.tmpl.bak", "X"), ("a", "X")], [], none) :=
  ⟨rfl, rfl, rfl⟩

/-- C8 (amended): the target name is the filename cut at the last occurrence
of ".tmpl" (so a filename ending in the suffix has exactly that suffix
stripped), and processTemplate's name check fails exactly when ".tmpl" occurs
nowhere in the filename; a name containing ".tmpl" only in the middle is
accepted, not rejected. -/
theorem c8_target_cut_at_last_tmpl :
    (∀ filename : String,
      (∃ e, templateTarget filename = .error e) ↔ ¬ (".tmpl".data <:+: filename.data)) ∧
    (∀ g : String, templateTarget (g ++ ".tmpl") = .ok g) := by
  constructor
  · intro filename
    unfold templateTarget
    cases h : lastIndexOfChars filename.data ".tmpl".data with
    | none =>
      simp [(lastIndexOfChars_eq_none_iff _ _).mp h]
    | some i =>
      have hin : ".tmpl".data <:+: filename.data := by
        by_contra hc
        rw [(lastIndexOfChars_eq_none_iff _ _).mpr hc] at h
        cases h
      simp [hin]
  · intro g
    obtain ⟨gl⟩ := g
    unfold templateTarget
    have hd : ((⟨gl⟩ : String) ++ ".tmpl").data = gl ++ ".tmpl".data :=
      String.data_append _ _
    rw [hd, lastIndexOfChars_append_tmpl]
    show Except.ok (⟨List.take gl.length (gl ++ ".tmpl".data)⟩ : String) =
      Except.ok (⟨gl⟩ : String)
    rw [List.take_left]

/-! Lemmas about the file-system state of processTemplate. -/

theorem readFS_writeFS (fs : FileSys) (name contents : String) :
    readFS (writeFS fs name contents) name = some contents := by
  induction fs with
  | nil => simp [writeFS, readFS]
  | cons kv rest ih =>
    obtain ⟨n, c⟩ := kv
    by_cases h : n = name <;> simp [writeFS, readFS, h, ih]

/-- C9: when the destination file already exists, processTemplate with force
unset returns the destination-exists error (spelled "destinaton exists" in
the source) and leaves the whole file system, in particular the destination's
bytes, unchanged; with force set it logs the overwrite warning and, for a
template file that parses, proceeds to overwrite the destination with the
rendered output. -/
theorem c9_overwrite_protection (fs : FileSys) (filename target : String)
    (parse : String → Except String Template) (vars : VarTable)
    (htarget : templateTarget filename = .ok target)
    (hexists : existsFS fs target = true) :
    ((processTemplate fs filename parse vars false).1 = fs ∧
      (processTemplate fs filename parse vars false).2.2 =
        some ("error processing template: destinaton exists: " ++ target)) ∧
    (("overwriting existing file: " ++ target) ∈
        (processTemplate fs filename parse vars true).2.1 ∧
      ∀ c t, readFS fs filename = some c → parse c = .ok t →
        (processTemplate fs filename parse vars true).1 =
          writeFS fs target (renderTemplate t vars) ∧
        readFS (processTemplate fs filename parse vars true).1 target =
          some (renderTemplate t vars)) := by
  refine ⟨?_, ?_, ?_⟩
  · unfold processTemplate
    rw [htarget]
    simp [hexists]
  · unfold processTemplate
    rw [htarget]
    simp only [hexists]
    cases hr : readFS fs filename with
    | none => simp
    | some c =>
      cases hp : parse c with
      | error e => simp [hp]
      | ok t => simp [hp]
  · intro c t hc ht
    unfold processTemplate
    rw [htarget]
    simp only [hexists, hc, ht]
    simp [readFS_writeFS]

/-- C9 witness. -/
theorem c9_overwrite_protection_witness :
    templateTarget "test.txt.tmpl" = .ok "test.txt" ∧
    existsFS [("test.txt", "OLD"), ("test.txt.tmpl", "SRC")] "test.txt" = true ∧
    (((processTemplate [("test.txt", "OLD"), ("test.txt.tmpl", "SRC")] "test.txt.tmpl"
        (fun s => .ok [TNode.text s]) [] false).1 =
          [("test.txt", "OLD"), ("test.txt.tmpl", "SRC")] ∧
      (processTemplate [("test.txt", "OLD"), ("test.txt.tmpl", "SRC")] "test.txt.tmpl"
        (fun s => .ok [TNode.text s]) [] false).2.2 =
          some ("error processing template: destinaton exists: " ++ "test.txt")) ∧
      (("overwriting existing file: " ++ "test.txt") ∈
        (processTemplate [("test.txt", "OLD"), ("test.txt.tmpl", "SRC")] "test.txt.tmpl"
          (fun s => .ok [TNode.text s]) [] true).2.1 ∧
      ∀ c t, readFS [("test.txt", "OLD"), ("test.txt.tmpl", "SRC")] "test.txt.tmpl" = some c →
        (fun s => (.ok [TNode.text s] : Except String Template)) c = .ok t →
          (processTemplate [("test.txt", "OLD"), ("test.txt.tmpl", "SRC")] "test.txt.tmpl"
            (fun s => .ok [TNode.text s]) [] true).1 =
              writeFS [("test.txt", "OLD"), ("test.txt.tmpl", "SRC")] "test.txt"
                (renderTemplate t []) ∧
          readFS (processTemplate [("test.txt", "OLD"), ("test.txt.tmpl", "SRC")]
            "test.txt.tmpl" (fun s => .ok [TNode.text s]) [] true).1 "test.txt" =
              some (renderTemplate t []))) :=
  ⟨rfl, rfl,
    c9_overwrite_protection [("test.txt", "OLD"), ("test.txt.tmpl", "SRC")]
      "test.txt.tmpl" "test.txt" (fun s => .ok [TNode.text s]) [] rfl rfl⟩

/-! Soundness of the link-value matcher: the captured groups reassemble to the
input, so the derived URL replaces exactly the scheme part by http. -/

theorem findSome?_eq_some_exists {α β : Type} (f : α → Option β) (l : List α) (b : β)
    (h : l.findSome? f = some b) : ∃ a ∈ l, f a = some b := by
  induction l with
  | nil => cases h
  | cons x xs ih =>
    rw [List.findSome?_cons] at h
    cases hx : f x with
    | some y =>
      rw [hx] at h
      exact ⟨x, List.mem_cons_self _ _, hx.trans h⟩
    | none =>
      rw [hx] at h
      obtain ⟨a, ha, hfa⟩ := ih h
      exact ⟨a, List.mem_cons_of_mem _ ha, hfa⟩

theorem splitsDesc_append (l : List Char) (p : List Char × List Char)
    (hp : p ∈ splitsDesc l) : p.1 ++ p.2 = l := by
  induction l generalizing p with
  | nil =>
    simp only [splitsDesc, List.mem_singleton] at hp
    subst hp; rfl
  | cons c cs ih =>
    simp only [splitsDesc, List.mem_append, List.mem_map, List.mem_singleton] at hp
    rcases hp with ⟨q, hq, hpq⟩ | hp
    · subst hpq
      simpa using ih q hq
    · subst hp; rfl

theorem matchHostPort_sound (l h p : List Char) (hm : matchHostPort l = some (h, p)) :
    l = h ++ ':' :: p := by
  obtain ⟨g, hg, hfg⟩ := findSome?_eq_some_exists _ _ _ hm
  have hsplit := splitsDesc_append l g hg
  split at hfg
  · split at hfg
    · obtain ⟨rfl, rfl⟩ := Prod.mk.injEq .. ▸ Option.some.inj hfg
      rename_i ds heq _
      rw [← hsplit, heq]
    · cases hfg
  · cases hfg

theorem parseLinkvalue_sound (v s h p : String)
    (hv : parseLinkvalue v = .ok (s, h, p)) : v = s ++ "://" ++ h ++ ":" ++ p := by
  unfold parseLinkvalue at hv
  cases hc : parseLinkvalueChars v.data with
  | none => rw [hc] at hv; cases hv
  | some t =>
    rw [hc] at hv
    obtain ⟨sc, hc2, pc⟩ := t
    obtain ⟨rfl, rfl, rfl⟩ : (⟨sc⟩ : String) = s ∧ (⟨hc2⟩ : String) = h ∧ (⟨pc⟩ : String) = p := by
      have := Except.ok.inj hv
      exact ⟨congrArg Prod.fst this, congrArg (fun q => q.2.1) this, congrArg (fun q => q.2.2) this⟩
    obtain ⟨g, hg, hfg⟩ := findSome?_eq_some_exists _ _ _ hc
    have hsplit := splitsDesc_append v.data g hg
    apply String.ext
    split at hfg
    · rename_i rest heq
      cases hmp : matchHostPort rest with
      | none => rw [hmp] at hfg; cases hfg
      | some hp2 =>
        rw [hmp] at hfg
        obtain ⟨h2, p2⟩ := hp2
        obtain ⟨rfl, rfl, rfl⟩ : g.1 = sc ∧ h2 = hc2 ∧ p2 = pc := by
          have := Option.some.inj hfg
          exact ⟨congrArg Prod.fst this, congrArg (fun q => q.2.1) this,
            congrArg (fun q => q.2.2) this⟩
        have hrest := matchHostPort_sound rest h2 p2 hmp
        rw [← hsplit, heq, hrest]
        simp [String.data_append]
    · cases hfg

/-- C6: the single link entry APP_PORT_1234_TCP=tcp://hostname:1234 makes
readExtendedVariables map APP_URL to exactly the one-element list holding
http://hostname:1234 and likewise APP_1234_URL; and in general a value
parseLinkvalue accepts decomposes as scheme://host:port, of which the derived
URL http://host:port keeps only host and port, discarding the scheme. -/
theorem c6_derived_url_discards_scheme :
    valuesOf (readExtendedVariables ["APP_PORT_1234_TCP=tcp://hostname:1234"]) "APP_URL" =
      ["http://hostname:1234"] ∧
    valuesOf (readExtendedVariables ["APP_PORT_1234_TCP=tcp://hostname:1234"]) "APP_1234_URL" =
      ["http://hostname:1234"] ∧
    ∀ v s h p, parseLinkvalue v = .ok (s, h, p) → v = s ++ "://" ++ h ++ ":" ++ p :=
  ⟨rfl, rfl, parseLinkvalue_sound⟩

/-- C6 witness. -/
theorem c6_derived_url_discards_scheme_witness :
    parseLinkvalue "tcp://hostname:1234" = .ok ("tcp", "hostname", "1234") ∧
    "tcp://hostname:1234" = "tcp" ++ "://" ++ "hostname" ++ ":" ++ "1234" :=
  ⟨rfl, c6_derived_url_discards_scheme.2.2 "tcp://hostname:1234" "tcp" "hostname" "1234" rfl⟩

/-! Characterization of the raw table as a function of the environment, used
for the order-independence analysis. -/

/-- Values a key collects from the raw phase, in entry order. -/
def envValues (k : String) (env : List String) : List String :=
  env.filterMap (fun e => if (splitEnvEntry e).1 = k then some (splitEnvEntry e).2 else none)

theorem buildRawAux_values (env : List String) (m : VarTable) (k : String) :
    valuesOf (env.foldl (fun m e => appendVar m (splitEnvEntry e).1 (splitEnvEntry e).2) m) k =
      valuesOf m k ++ envValues k env := by
  induction env generalizing m with
  | nil => simp [envValues]
  | cons e env ih =>
    rw [List.foldl_cons, ih]
    by_cases h : (splitEnvEntry e).1 = k
    · rw [valuesOf_appendVar]
      simp [envValues, List.filterMap_cons, h, List.append_assoc]
    · have h' : ¬ k = (splitEnvEntry e).1 := fun hk => h hk.symm
      rw [valuesOf_appendVar]
      simp [envValues, List.filterMap_cons, h, h']

theorem buildRawTable_values (env : List String) (k : String) :
    valuesOf (buildRawTable env) k = envValues k env := by
  have := buildRawAux_values env [] k
  simpa [buildRawTable, valuesOf, lookupVar] using this

theorem mem_map_fst_appendVar (m : VarTable) (k v k' : String) :
    k' ∈ (appendVar m k v).map Prod.fst ↔ k' ∈ m.map Prod.fst ∨ k' = k := by
  induction m with
  | nil => simp [appendVar]
  | cons kv rest ih =>
    obtain ⟨k0, vs⟩ := kv
    by_cases h : k0 = k <;> simp [appendVar, h, ih] <;> tauto

theorem nodup_map_fst_appendVar (m : VarTable) (k v : String)
    (h : (m.map Prod.fst).Nodup) : ((appendVar m k v).map Prod.fst).Nodup := by
  induction m with
  | nil => simp [appendVar]
  | cons kv rest ih =>
    obtain ⟨k0, vs⟩ := kv
    rw [List.map_cons, List.nodup_cons] at h
    by_cases hk : k0 = k
    · simp only [appendVar, if_pos hk, List.map_cons, List.nodup_cons]
      exact ⟨h.1, h.2⟩
    · simp only [appendVar, if_neg hk, List.map_cons, List.nodup_cons]
      refine ⟨?_, ih h.2⟩
      rw [mem_map_fst_appendVar]
      rintro (hc | hc)
      · exact h.1 hc
      · exact hk hc

theorem mem_map_fst_buildRawAux (env : List String) (m : VarTable) (k' : String) :
    k' ∈ ((env.foldl (fun m e => appendVar m (splitEnvEntry e).1 (splitEnvEntry e).2) m).map
        Prod.fst) ↔
      k' ∈ m.map Prod.fst ∨ k' ∈ env.map envName := by
  induction env generalizing m with
  | nil => simp
  | cons e env ih =>
    rw [List.foldl_cons, ih]
    rw [mem_map_fst_appendVar]
    simp [envName]
    tauto

theorem mem_map_fst_buildRawTable (env : List String) (k' : String) :
    k' ∈ (buildRawTable env).map Prod.fst ↔ k' ∈ env.map envName := by
  have := mem_map_fst_buildRawAux env [] k'
  simpa [buildRawTable] using this

theorem nodup_map_fst_buildRawTable (env : List String) :
    ((buildRawTable env).map Prod.fst).Nodup := by
  rw [buildRawTable]
  generalize hm : ([] : VarTable) = m
  have hnd : (m.map Prod.fst).Nodup := by rw [← hm]; simp
  clear hm
  induction env generalizing m with
  | nil => exact hnd
  | cons e env ih =>
    rw [List.foldl_cons]
    exact ih _ (nodup_map_fst_appendVar _ _ _ hnd)

/-! Correctness of the sort modelling Go's sort.Strings. -/

/-- Ordering relation decided by goLeString. -/
def strLe (a b : String) : Prop := goLeString a b = true

theorem leChars_total (a b : List Char) : leChars a b = true ∨ leChars b a = true := by
  induction a generalizing b with
  | nil => left; rfl
  | cons x xs ih =>
    cases b with
    | nil => right; rfl
    | cons y ys =>
      by_cases h : x = y
      · subst h
        simpa [leChars] using ih ys
      · rcases lt_trichotomy x y with hlt | heq | hgt
        · left; simp [leChars, h, hlt]
        · exact absurd heq h
        · right; simp [leChars, Ne.symm h, hgt]

theorem leChars_antisymm (a b : List Char) (h1 : leChars a b = true)
    (h2 : leChars b a = true) : a = b := by
  induction a generalizing b with
  | nil =>
    cases b with
    | nil => rfl
    | cons y ys => cases h2
  | cons x xs ih =>
    cases b with
    | nil => cases h1
    | cons y ys =>
      by_cases h : x = y
      · subst h
        rw [leChars, if_pos rfl] at h1 h2
        rw [ih ys h1 h2]
      · rw [leChars, if_neg h, decide_eq_true_eq] at h1
        rw [leChars, if_neg (Ne.symm h), decide_eq_true_eq] at h2
        exact absurd h2 (lt_asymm h1)

theorem leChars_trans (a b c : List Char) (h1 : leChars a b = true)
    (h2 : leChars b c = true) : leChars a c = true := by
  induction a generalizing b c with
  | nil => rfl
  | cons x xs ih =>
    cases b with
    | nil => cases h1
    | cons y ys =>
      cases c with
      | nil => cases h2
      | cons z zs =>
        by_cases hxy : x = y <;> by_cases hyz : y = z
        · subst hxy; subst hyz
          rw [leChars, if_pos rfl] at h1 h2 ⊢
          exact ih ys zs h1 h2
        · subst hxy
          rw [leChars, if_neg hyz, decide_eq_true_eq] at h2
          rw [leChars, if_neg hyz, decide_eq_true_eq]
          exact h2
        · subst hyz
          rw [leChars, if_neg hxy, decide_eq_true_eq] at h1
          rw [leChars, if_neg hxy, decide_eq_true_eq]
          exact h1
        · rw [leChars, if_neg hxy, decide_eq_true_eq] at h1
          rw [leChars, if_neg hyz, decide_eq_true_eq] at h2
          have hxz := lt_trans h1 h2
          rw [leChars, if_neg (ne_of_lt hxz), decide_eq_true_eq]
          exact hxz

theorem strLe_total (a b : String) : strLe a b ∨ strLe b a := leChars_total a.data b.data

theorem strLe_trans {a b c : String} (h1 : strLe a b) (h2 : strLe b c) : strLe a c :=
  leChars_trans a.data b.data c.data h1 h2

instance : IsAntisymm String strLe :=
  ⟨fun a b h1 h2 => String.ext (leChars_antisymm a.data b.data h1 h2)⟩

theorem insertSorted_perm (x : String) (l : List String) :
    (insertSorted x l).Perm (x :: l) := by
  induction l with
  | nil => exact List.Perm.refl _
  | cons y ys ih =>
    by_cases h : goLeString x y
    · simp [insertSorted, h]
    · simp only [insertSorted, if_neg h]
      exact (ih.cons y).trans (List.Perm.swap x y ys)

theorem sortStrings_perm (l : List String) : (sortStrings l).Perm l := by
  induction l with
  | nil => exact List.Perm.refl _
  | cons x xs ih => exact (insertSorted_perm x (sortStrings xs)).trans (ih.cons x)

theorem sorted_insertSorted (x : String) (l : List String) (h : l.Sorted strLe) :
    (insertSorted x l).Sorted strLe := by
  induction l with
  | nil => simp [insertSorted, strLe]
  | cons y ys ih =>
    rw [List.sorted_cons] at h
    by_cases hxy : goLeString x y
    · simp only [insertSorted, if_pos hxy]
      rw [List.sorted_cons]
      refine ⟨?_, List.sorted_cons.mpr h⟩
      intro b hb
      rcases List.mem_cons.mp hb with rfl | hb
      · exact hxy
      · exact strLe_trans hxy (h.1 b hb)
    · simp only [insertSorted, if_neg hxy]
      rw [List.sorted_cons]
      refine ⟨?_, ih h.2⟩
      intro b hb
      rcases List.mem_cons.mp ((insertSorted_perm x ys).mem_iff.mp hb) with rfl | hb
      · rcases strLe_total b y with hle | hle
        · exact absurd hle hxy
        · exact hle
      · exact h.1 b hb

theorem sorted_sortStrings (l : List String) : (sortStrings l).Sorted strLe := by
  induction l with
  | nil => simp [sortStrings]
  | cons x xs ih => exact sorted_insertSorted x (sortStrings xs) ih

theorem sortStrings_eq_of_perm (l1 l2 : List String) (h : l1.Perm l2) :
    sortStrings l1 = sortStrings l2 :=
  List.eq_of_perm_of_sorted
    ((sortStrings_perm l1).trans (h.trans (sortStrings_perm l2).symm))
    (sorted_sortStrings l1) (sorted_sortStrings l2)

/-! Pointwise equality of tables is preserved by the derivation loop. -/

/-- TableEq: two tables with the same value list for every key. -/
def TableEq (m1 m2 : VarTable) : Prop := ∀ k, valuesOf m1 k = valuesOf m2 k

theorem tableEq_appendVar {m1 m2 : VarTable} (h : TableEq m1 m2) (k v : String) :
    TableEq (appendVar m1 k v) (appendVar m2 k v) := by
  intro k'
  rw [valuesOf_appendVar, valuesOf_appendVar, h k, h k']

theorem tableEq_addNew {m1 m2 : VarTable} (h : TableEq m1 m2) (k v : String) :
    TableEq (addNew m1 k v).1 (addNew m2 k v).1 := by
  intro k'
  by_cases hv : v ∈ valuesOf m2 k
  · have hv1 : v ∈ valuesOf m1 k := (h k).symm ▸ hv
    simp only [addNew, if_pos hv, if_pos hv1]
    exact h k'
  · have hv1 : v ∉ valuesOf m1 k := (h k).symm ▸ hv
    simp only [addNew, if_neg hv, if_neg hv1]
    exact tableEq_appendVar h k v k'

theorem deriveStep_eq_of_skip (m : VarTable) (key : String)
    (h1 : (parseLinkkey key).1 = "") : deriveStep m key = m := by
  simp [deriveStep, h1]

theorem deriveStep_eq_of_nil (m : VarTable) (key : String)
    (h1 : ¬ (parseLinkkey key).1 = "") (h2 : valuesOf m key = []) :
    deriveStep m key = m := by
  simp only [deriveStep]
  rw [if_neg h1, h2]

theorem deriveStep_eq_of_bad_value (m : VarTable) (key v0 : String) (rest : List String)
    (e : String) (h1 : ¬ (parseLinkkey key).1 = "") (h2 : valuesOf m key = v0 :: rest)
    (h3 : parseLinkvalue v0 = .error e) : deriveStep m key = m := by
  simp only [deriveStep]
  rw [if_neg h1, h2]
  simp [h3]

theorem deriveStep_eq_of_good_value (m : VarTable) (key v0 : String) (rest : List String)
    (s host port : String) (h1 : ¬ (parseLinkkey key).1 = "")
    (h2 : valuesOf m key = v0 :: rest) (h3 : parseLinkvalue v0 = .ok (s, host, port)) :
    deriveStep m key =
      (addNew (addNew m ((parseLinkkey key).1 ++ "_URL") ("http://" ++ host ++ ":" ++ port)).1
        ((parseLinkkey key).1 ++ "_" ++ (parseLinkkey key).2.2 ++ "_URL")
        ("http://" ++ host ++ ":" ++ port)).1 := by
  simp only [deriveStep]
  rw [if_neg h1, h2]
  simp [h3]

theorem tableEq_deriveStep {m1 m2 : VarTable} (h : TableEq m1 m2) (key : String) :
    TableEq (deriveStep m1 key) (deriveStep m2 key) := by
  by_cases h1 : (parseLinkkey key).1 = ""
  · rw [deriveStep_eq_of_skip m1 key h1, deriveStep_eq_of_skip m2 key h1]
    exact h
  · cases hv : valuesOf m2 key with
    | nil =>
      have hv1 : valuesOf m1 key = [] := by rw [h key]; exact hv
      rw [deriveStep_eq_of_nil m1 key h1 hv1, deriveStep_eq_of_nil m2 key h1 hv]
      exact h
    | cons v0 rest =>
      have hv1 : valuesOf m1 key = v0 :: rest := by rw [h key]; exact hv
      cases hp : parseLinkvalue v0 with
      | error e =>
        rw [deriveStep_eq_of_bad_value m1 key v0 rest e h1 hv1 hp,
          deriveStep_eq_of_bad_value m2 key v0 rest e h1 hv hp]
        exact h
      | ok t =>
        obtain ⟨s, host, port⟩ := t
        rw [deriveStep_eq_of_good_value m1 key v0 rest s host port h1 hv1 hp,
          deriveStep_eq_of_good_value m2 key v0 rest s host port h1 hv hp]
        exact tableEq_addNew (tableEq_addNew h _ _) _ _

theorem tableEq_foldl {m1 m2 : VarTable} (h : TableEq m1 m2) (keys : List String) :
    TableEq (keys.foldl deriveStep m1) (keys.foldl deriveStep m2) := by
  induction keys generalizing m1 m2 with
  | nil => exact h
  | cons key rest ih => exact ih (tableEq_deriveStep h key)

/-! Per-key value sequences under permutations of the environment. -/

theorem envValues_cons (k e : String) (env : List String) :
    envValues k (e :: env) =
      if (splitEnvEntry e).1 = k then (splitEnvEntry e).2 :: envValues k env
      else envValues k env := by
  by_cases h : (splitEnvEntry e).1 = k <;> simp [envValues, List.filterMap_cons, h]

theorem envValues_eq_nil_of_not_mem (k : String) (env : List String)
    (h : k ∉ env.map envName) : envValues k env = [] := by
  induction env with
  | nil => rfl
  | cons e env ih =>
    rw [List.map_cons, List.mem_cons] at h
    push_neg at h
    have hne : ¬ (splitEnvEntry e).1 = k := fun hk => h.1 (hk.symm ▸ rfl)
    rw [envValues_cons, if_neg hne]
    exact ih h.2

theorem length_envValues_le_one (k : String) (env : List String)
    (h : (env.map envName).Nodup) : (envValues k env).length ≤ 1 := by
  induction env with
  | nil => simp [envValues]
  | cons e env ih =>
    rw [List.map_cons, List.nodup_cons] at h
    by_cases hk : (splitEnvEntry e).1 = k
    · have hnil : envValues k env = [] := by
        apply envValues_eq_nil_of_not_mem
        intro hmem
        exact h.1 (by rw [envName, hk]; exact hmem)
      rw [envValues_cons, if_pos hk, hnil]
      simp
    · rw [envValues_cons, if_neg hk]
      exact ih h.2

theorem perm_eq_of_length_le_one {α : Type} {l1 l2 : List α} (h : l1.Perm l2)
    (hl : l1.length ≤ 1) : l1 = l2 := by
  cases l1 with
  | nil => exact ((List.nil_perm).mp h).symm
  | cons x xs =>
    cases xs with
    | nil => exact List.singleton_perm.mp h
    | cons y ys => simp at hl

/-- C7 counterexample: permutation invariance fails for raw environments in
which the same name occurs twice with different values.  Swapping the two
A_PORT_1_TCP entries swaps which value is the key's primary value, and the
derived A_URL list changes. -/
theorem c7_counterexample_duplicate_names :
    ["A_PORT_1_TCP=tcp://h2:1", "A_PORT_1_TCP=tcp://h1:1"].Perm
      ["A_PORT_1_TCP=tcp://h1:1", "A_PORT_1_TCP=tcp://h2:1"] ∧
    valuesOf (readExtendedVariables ["A_PORT_1_TCP=tcp://h1:1", "A_PORT_1_TCP=tcp://h2:1"])
      "A_URL" = ["http://h1:1"] ∧
    valuesOf (readExtendedVariables ["A_PORT_1_TCP=tcp://h2:1", "A_PORT_1_TCP=tcp://h1:1"])
      "A_URL" = ["http://h2:1"] ∧
    valuesOf (readExtendedVariables ["A_PORT_1_TCP=tcp://h1:1", "A_PORT_1_TCP=tcp://h2:1"])
        "A_URL" ≠
      valuesOf (readExtendedVariables ["A_PORT_1_TCP=tcp://h2:1", "A_PORT_1_TCP=tcp://h1:1"])
        "A_URL" := by
  refine ⟨List.Perm.swap' _ _ (List.Perm.refl _), rfl, rfl, ?_⟩
  decide

/-- C7 (amended): readExtendedVariables snapshots the table keys in sorted
order (the snapshot is a sorted permutation of the table's keys), and for raw
environments in which no name occurs twice the whole resulting table -- in
particular every derived synthetic value list -- is identical for any
permutation of the input entries; the three-link ES example yields ES_URL and
ES_9200_URL holding the three URLs in ascending link-key order.  For
environments with repeated names the counterexample shows invariance fails. -/
theorem c7_sorted_keys_and_order_independence :
    (∀ m : VarTable, (tableKeysSorted m).Sorted strLe ∧
      (tableKeysSorted m).Perm (m.map Prod.fst)) ∧
    (∀ env1 env2 : List String, env1.Perm env2 → (env1.map envName).Nodup →
      ∀ k, valuesOf (readExtendedVariables env1) k =
        valuesOf (readExtendedVariables env2) k) ∧
    (valuesOf (readExtendedVariables
        ["ES_1_PORT_9200_TCP=tcp://h1:9200", "ES_2_PORT_9200_TCP=tcp://h2:9200",
         "ES_3_PORT_9200_TCP=tcp://h3:9200"]) "ES_URL" =
      ["http://h1:9200", "http://h2:9200", "http://h3:9200"] ∧
     valuesOf (readExtendedVariables
        ["ES_1_PORT_9200_TCP=tcp://h1:9200", "ES_2_PORT_9200_TCP=tcp://h2:9200",
         "ES_3_PORT_9200_TCP=tcp://h3:9200"]) "ES_9200_URL" =
      ["http://h1:9200", "http://h2:9200", "http://h3:9200"]) := by
  refine ⟨fun m => ⟨sorted_sortStrings _, sortStrings_perm _⟩, ?_, rfl, rfl⟩
  intro env1 env2 hperm hnodup k
  have hraw : TableEq (buildRawTable env1) (buildRawTable env2) := by
    intro k'
    rw [buildRawTable_values, buildRawTable_values]
    exact perm_eq_of_length_le_one (hperm.filterMap _) (length_envValues_le_one k' env1 hnodup)
  have hkeys : tableKeysSorted (buildRawTable env1) = tableKeysSorted (buildRawTable env2) := by
    apply sortStrings_eq_of_perm
    rw [List.perm_ext_iff_of_nodup (nodup_map_fst_buildRawTable env1)
      (nodup_map_fst_buildRawTable env2)]
    intro a
    rw [mem_map_fst_buildRawTable, mem_map_fst_buildRawTable]
    exact (hperm.map envName).mem_iff
  show valuesOf ((tableKeysSorted (buildRawTable env1)).foldl deriveStep (buildRawTable env1)) k =
    valuesOf ((tableKeysSorted (buildRawTable env2)).foldl deriveStep (buildRawTable env2)) k
  rw [hkeys]
  exact tableEq_foldl hraw _ k

/-- C7 witness. -/
theorem c7_sorted_keys_and_order_independence_witness :
    (["ES_3_PORT_9200_TCP=tcp://h3:9200", "ES_1_PORT_9200_TCP=tcp://h1:9200",
      "ES_2_PORT_9200_TCP=tcp://h2:9200"].Perm
      ["ES_1_PORT_9200_TCP=tcp://h1:9200", "ES_2_PORT_9200_TCP=tcp://h2:9200",
       "ES_3_PORT_9200_TCP=tcp://h3:9200"]) ∧
    (["ES_3_PORT_9200_TCP=tcp://h3:9200", "ES_1_PORT_9200_TCP=tcp://h1:9200",
      "ES_2_PORT_9200_TCP=tcp://h2:9200"].map envName).Nodup ∧
    valuesOf (readExtendedVariables
      ["ES_3_PORT_9200_TCP=tcp://h3:9200", "ES_1_PORT_9200_TCP=tcp://h1:9200",
       "ES_2_PORT_9200_TCP=tcp://h2:9200"]) "ES_URL" =
    valuesOf (readExtendedVariables
      ["ES_1_PORT_9200_TCP=tcp://h1:9200", "ES_2_PORT_9200_TCP=tcp://h2:9200",
       "ES_3_PORT_9200_TCP=tcp://h3:9200"]) "ES_URL" :=
  ⟨by decide, by decide,
    c7_sorted_keys_and_order_independence.2.1
      ["ES_3_PORT_9200_TCP=tcp://h3:9200", "ES_1_PORT_9200_TCP=tcp://h1:9200",
       "ES_2_PORT_9200_TCP=tcp://h2:9200"]
      ["ES_1_PORT_9200_TCP=tcp://h1:9200", "ES_2_PORT_9200_TCP=tcp://h2:9200",
       "ES_3_PORT_9200_TCP=tcp://h3:9200"]
      (by decide) (by decide) "ES_URL"⟩

end DockerStarter
